import Mathlib

/-!
Verification of the analytics engine of a market-risk portfolio analyzer.

The engine's numeric code (risklab/{metrics,var,portfolio,beta,factors}.py)
is shallowly embedded here.  Conventions used throughout:

* A pandas `Series` of returns is `List (Option ℚ)`: `none` models a missing
  value (`NaN`), `some x` a numeric entry.  Exact rationals stand in for
  IEEE doubles; properties proved are the exact-arithmetic content of the
  claims.  Where a value is irrational (square roots, real powers, the
  inverse-normal approximation) real numbers are used.
* A Python function that can raise or return the `NaN` sentinel is embedded
  with an explicit result type (`QRes` / `RRes`) distinguishing a raised
  exception from a `NaN` result from a numeric value.
* pandas reductions (`sum`, `mean`, `std`, `prod`, `min`) skip missing
  values; this is embedded by reducing over the list of numeric entries.
-/

namespace RiskLab

/-- Numeric entries of a series: pandas `dropna` (and the implicit
`skipna=True` of pandas reductions). -/
def dropv (r : List (Option ℚ)) : List ℚ := r.filterMap id

/-- Mean of a list of rationals, `sum / len` (pandas `mean` on the numeric
entries; the empty case, `0 / 0 = 0` here, is always guarded by callers
that model the `NaN` mean of an empty series explicitly). -/
def qmean (l : List ℚ) : ℚ := l.sum / l.length

/-- Population variance (`ddof=0`): mean squared deviation from the mean. -/
def var0 (l : List ℚ) : ℚ := ((l.map fun x => (x - qmean l) ^ 2).sum) / l.length

/-! ### risklab/portfolio.py : `normalize_weights` -/

/-- Embedding of `normalize_weights` (portfolio.py lines 5-8): divide the
weight vector by its own sum unless that sum is exactly zero, in which case
the vector is returned unchanged. -/
def normalize_weights (w : List ℚ) : List ℚ :=
  let total := w.sum
  if total ≠ 0 then w.map (· / total) else w

/-! ### risklab/var.py : historical VaR and CVaR -/

/-- Result of a Python function that may raise, return the `NaN` sentinel,
or return a (rational) number. -/
inductive QRes where
  | raise : QRes
  | nan : QRes
  | val : ℚ → QRes
deriving DecidableEq

/-- Embedding of `np.quantile(l, p)` with the default linear interpolation:
sort ascending, set `h = p*(n-1)`, and interpolate between the order
statistics at `⌊h⌋` and `⌊h⌋ + 1`.  (NumPy uses `⌈h⌉` for the upper index;
when `h` is an integer the interpolation weight is `0`, so using `⌊h⌋ + 1`
is the same function.)  Insertion sort is used as the sorting routine. -/
def npQuantile (l : List ℚ) (p : ℚ) : ℚ :=
  let s := l.insertionSort (· ≤ ·)
  let h := p * (l.length - 1)
  let i := (⌊h⌋).toNat
  let g := h - i
  s.getD i 0 + g * (s.getD (i + 1) 0 - s.getD i 0)

/-- Embedding of `var_historical` (var.py lines 32-34): drop missing values
and take the `(1-α)` empirical quantile.  `np.quantile` raises on an empty
array, and also when the requested quantile `1-α` lies outside `[0,1]`. -/
def var_historical (rets : List (Option ℚ)) (α : ℚ) : QRes :=
  let r := dropv rets
  if r = [] then .raise
  else if α < 0 ∨ 1 < α then .raise
  else .val (npQuantile r (1 - α))

/-- Embedding of `cvar_historical` (var.py lines 36-39): mean of the numeric
observations at or below the historical VaR threshold, `NaN` if none
qualify; an exception from `var_historical` propagates. -/
def cvar_historical (rets : List (Option ℚ)) (α : ℚ) : QRes :=
  match var_historical rets α with
  | .val q =>
      let tail := (dropv rets).filter (· ≤ q)
      if tail = [] then .nan else .val (qmean tail)
  | e => e

/-! ### Helper lemmas about sums, means and the empirical quantile -/

lemma sum_map_div (l : List ℚ) (t : ℚ) : (l.map (· / t)).sum = l.sum / t := by
  induction l with
  | nil => simp
  | cons x xs ih => simp [ih, add_div]

lemma all_zero_of_sum_eq_zero (l : List ℚ) (h : ∀ x ∈ l, 0 ≤ x)
    (hs : l.sum = 0) : ∀ x ∈ l, x = 0 := by
  induction l with
  | nil => simp
  | cons x xs ih =>
      have hx : 0 ≤ x := h x (List.mem_cons_self x xs)
      have hxs : 0 ≤ xs.sum := List.sum_nonneg fun y hy => h y (List.mem_cons_of_mem _ hy)
      have hsum : x + xs.sum = 0 := by simpa using hs
      have hx0 : x = 0 := le_antisymm (by linarith) hx
      have hxs0 : xs.sum = 0 := by linarith
      intro y hy
      rcases List.mem_cons.mp hy with rfl | hy'
      · exact hx0
      · exact ih (fun z hz => h z (List.mem_cons_of_mem _ hz)) hxs0 y hy'

lemma mean_le_of_forall_le (l : List ℚ) (c : ℚ) (hne : l ≠ [])
    (h : ∀ x ∈ l, x ≤ c) : qmean l ≤ c := by
  have hlen : 0 < (l.length : ℚ) := by
    have : 0 < l.length := List.length_pos.mpr hne
    exact_mod_cast this
  have hsum : l.sum ≤ (l.length : ℚ) * c := by
    have := List.sum_le_card_nsmul l c h
    simpa [nsmul_eq_mul] using this
  rw [qmean, div_le_iff₀ hlen]
  linarith

/-- The minimum observation is at or below the interpolated empirical
quantile: for a non-empty list and `p ∈ [0,1]` there is an element of the
list that is `≤ npQuantile l p`. -/
lemma exists_mem_le_npQuantile (l : List ℚ) (p : ℚ) (hne : l ≠ [])
    (hp0 : 0 ≤ p) (hp1 : p ≤ 1) : ∃ x ∈ l, x ≤ npQuantile l p := by
  classical
  set s := l.insertionSort (· ≤ ·) with hs
  have hperm : s.Perm l := List.perm_insertionSort _ l
  have hsorted : List.Sorted (· ≤ ·) s := List.sorted_insertionSort _ l
  have hslen : s.length = l.length := hperm.length_eq
  have hn : 1 ≤ l.length := List.length_pos.mpr hne
  set h : ℚ := p * (l.length - 1) with hh
  have hn1 : (0:ℚ) ≤ (l.length : ℚ) - 1 := by
    have : (1:ℚ) ≤ (l.length : ℚ) := by exact_mod_cast hn
    linarith
  have hh0 : 0 ≤ h := mul_nonneg hp0 hn1
  have hh1 : h ≤ (l.length : ℚ) - 1 := by
    calc h ≤ 1 * ((l.length : ℚ) - 1) := by
              exact mul_le_mul_of_nonneg_right hp1 hn1
      _ = (l.length : ℚ) - 1 := one_mul _
  set i : ℕ := (⌊h⌋).toNat with hi
  have hfl0 : 0 ≤ ⌊h⌋ := Int.floor_nonneg.mpr hh0
  have hicast : ((i : ℤ) : ℚ) = (⌊h⌋ : ℚ) := by
    rw [hi, Int.toNat_of_nonneg hfl0]
  have hile : (i : ℚ) ≤ h := by
    have := Int.floor_le h
    rw [← hicast] at this
    exact_mod_cast this
  have hg0 : 0 ≤ h - i := by linarith
  have hilt : i < l.length := by
    have h1 : (i : ℚ) ≤ (l.length : ℚ) - 1 := le_trans hile hh1
    have h2 : (i : ℚ) < (l.length : ℚ) := by linarith
    exact_mod_cast h2
  have hisl : i < s.length := by rw [hslen]; exact hilt
  have hmem : s.getD i 0 ∈ l := by
    have : s.getD i 0 ∈ s := by
      rw [List.getD_eq_getElem s 0 hisl]
      exact List.getElem_mem hisl
    exact hperm.mem_iff.mp this
  refine ⟨s.getD i 0, hmem, ?_⟩
  show s.getD i 0 ≤ npQuantile l p
  rw [npQuantile]
  simp only [← hs, ← hh, ← hi]
  by_cases hcase : i + 1 < s.length
  · have hle : s.getD i 0 ≤ s.getD (i + 1) 0 := by
      rw [List.getD_eq_getElem s 0 hisl, List.getD_eq_getElem s 0 hcase]
      exact List.Sorted.rel_get_of_lt hsorted (by exact_mod_cast Nat.lt_succ_self i)
    nlinarith [hg0, hle]
  · -- the floor index is the last index: the interpolation weight is zero
    have hieq : i = l.length - 1 := by
      have h1 : s.length ≤ i + 1 := le_of_not_lt hcase
      have h2 : l.length ≤ i + 1 := by rw [← hslen]; exact h1
      omega
    have hieqq : (i : ℚ) = (l.length : ℚ) - 1 := by
      rw [hieq]
      have : ((l.length - 1 : ℕ) : ℚ) = (l.length : ℚ) - 1 := by
        have : 1 ≤ l.length := hn
        push_cast [Nat.cast_sub this]
        ring
      exact this
    have hg : h - i = 0 := by
      have : h ≤ (i : ℚ) := by rw [hieqq]; exact hh1
      linarith
    rw [hg]
    ring_nf
    simp

/-- Membership in the CVaR tail set. -/
lemma mem_tail_iff (l : List ℚ) (q x : ℚ) :
    x ∈ l.filter (· ≤ q) ↔ x ∈ l ∧ x ≤ q := by
  simp [List.mem_filter]

/-! ### Claim C2 -/

/-- C2: for every weight vector `w` (non-negative entries, as the data model
requires of weight vectors), `normalize_weights w` sums to exactly 1
whenever the raw sum is non-zero, and every effective weight is zero when
the raw sum is exactly 0. -/
theorem C2_normalize_weights (w : List ℚ) (hw : ∀ x ∈ w, 0 ≤ x) :
    (w.sum ≠ 0 → (normalize_weights w).sum = 1) ∧
    (w.sum = 0 → ∀ x ∈ normalize_weights w, x = 0) := by
  constructor
  · intro hsum
    rw [normalize_weights]
    simp only [ne_eq, hsum, not_false_eq_true, if_true]
    rw [sum_map_div, div_self hsum]
  · intro hsum
    rw [normalize_weights]
    simp only [ne_eq, hsum, not_true_eq_false, if_false]
    exact all_zero_of_sum_eq_zero w hw hsum

/-- Witness for C2 at the concrete weight vector `[2, 3]`. -/
theorem C2_normalize_weights_witness :
    (∀ x ∈ ([2, 3] : List ℚ), 0 ≤ x) ∧ (normalize_weights [2, 3]).sum = 1 := by
  have hw : ∀ x ∈ ([2, 3] : List ℚ), 0 ≤ x := by
    intro x hx
    rcases List.mem_cons.mp hx with rfl | hx'
    · norm_num
    · rcases List.mem_cons.mp hx' with rfl | hx''
      · norm_num
      · simp at hx''
  exact ⟨hw, (C2_normalize_weights [2, 3] hw).1 (by norm_num)⟩

/-! ### Claims C3 and C10 -/

/-- C3: for a series that is non-empty after dropping missing values and any
confidence level `α ∈ (0,1)`, historical CVaR is at most historical VaR:
the tail mean is at least as extreme as the quantile. -/
theorem C3_cvar_le_var (rets : List (Option ℚ)) (α : ℚ)
    (hne : dropv rets ≠ []) (h0 : 0 < α) (h1 : α < 1) :
    ∃ q m : ℚ, var_historical rets α = QRes.val q ∧
      cvar_historical rets α = QRes.val m ∧ m ≤ q := by
  have hα : ¬(α < 0 ∨ 1 < α) := by push_neg; constructor <;> linarith
  have hvar : var_historical rets α = QRes.val (npQuantile (dropv rets) (1 - α)) := by
    rw [var_historical]
    rw [if_neg hne, if_neg hα]
  set q := npQuantile (dropv rets) (1 - α) with hq
  obtain ⟨x, hxmem, hxle⟩ :=
    exists_mem_le_npQuantile (dropv rets) (1 - α) hne (by linarith) (by linarith)
  have htail : (dropv rets).filter (· ≤ q) ≠ [] := by
    intro hempty
    have : x ∈ (dropv rets).filter (· ≤ q) := (mem_tail_iff _ q x).mpr ⟨hxmem, hxle⟩
    rw [hempty] at this
    exact List.not_mem_nil x this
  refine ⟨q, qmean ((dropv rets).filter (· ≤ q)), hvar, ?_, ?_⟩
  · simp only [cvar_historical, hvar, if_neg htail]
  · refine mean_le_of_forall_le _ q htail ?_
    intro y hy
    exact ((mem_tail_iff _ q y).mp hy).2

/-- Witness for C3 at the concrete series `[1, 2, -1, 3]` with `α = 0.95`. -/
theorem C3_cvar_le_var_witness :
    dropv [some 1, some 2, some (-1), some 3] ≠ [] ∧
    ∃ q m : ℚ, var_historical [some 1, some 2, some (-1), some 3] (95/100) = QRes.val q ∧
      cvar_historical [some 1, some 2, some (-1), some 3] (95/100) = QRes.val m ∧ m ≤ q := by
  have hne : dropv [some 1, some 2, some (-1), some 3] ≠ [] := by simp [dropv]
  exact ⟨hne, C3_cvar_le_var _ _ hne (by norm_num) (by norm_num)⟩

/-- C10: for a series with at least one non-missing value and `α ∈ (0,1)`,
the tail set `{observations ≤ var_historical}` is non-empty, so
`cvar_historical`'s empty-tail `NaN` branch is unreachable: it returns the
numeric tail mean. -/
theorem C10_cvar_tail_nonempty (rets : List (Option ℚ)) (α : ℚ)
    (hne : dropv rets ≠ []) (h0 : 0 < α) (h1 : α < 1) :
    ∃ q : ℚ, var_historical rets α = QRes.val q ∧
      (dropv rets).filter (· ≤ q) ≠ [] ∧
      cvar_historical rets α = QRes.val (qmean ((dropv rets).filter (· ≤ q))) := by
  have hα : ¬(α < 0 ∨ 1 < α) := by push_neg; constructor <;> linarith
  have hvar : var_historical rets α = QRes.val (npQuantile (dropv rets) (1 - α)) := by
    rw [var_historical]
    rw [if_neg hne, if_neg hα]
  set q := npQuantile (dropv rets) (1 - α) with hq
  obtain ⟨x, hxmem, hxle⟩ :=
    exists_mem_le_npQuantile (dropv rets) (1 - α) hne (by linarith) (by linarith)
  have htail : (dropv rets).filter (· ≤ q) ≠ [] := by
    intro hempty
    have : x ∈ (dropv rets).filter (· ≤ q) := (mem_tail_iff _ q x).mpr ⟨hxmem, hxle⟩
    rw [hempty] at this
    exact List.not_mem_nil x this
  refine ⟨q, hvar, htail, ?_⟩
  simp only [cvar_historical, hvar, if_neg htail]

/-- Witness for C10 at the concrete series `[0, 5]` (one missing entry)
with `α = 1/2`. -/
theorem C10_cvar_tail_nonempty_witness :
    dropv [some 0, none, some 5] ≠ [] ∧
    ∃ q : ℚ, var_historical [some 0, none, some 5] (1/2) = QRes.val q ∧
      (dropv [some 0, none, some 5]).filter (· ≤ q) ≠ [] := by
  have hne : dropv [some 0, none, some 5] ≠ [] := by simp [dropv]
  obtain ⟨q, hvar, htail, _⟩ :=
    C10_cvar_tail_nonempty [some 0, none, some 5] (1/2) hne (by norm_num) (by norm_num)
  exact ⟨hne, q, hvar, htail⟩

/-! ### risklab/beta.py : rolling beta -/

/-- Sample covariance with `ddof = 1` (the pandas default for
`rolling().cov`): paired deviation products summed and divided by `n - 1`. -/
def scov (xs ys : List ℚ) : ℚ :=
  (((xs.zip ys).map fun p => (p.1 - qmean xs) * (p.2 - qmean ys)).sum) /
    ((xs.length : ℚ) - 1)

/-- Sample variance with `ddof = 1` (the pandas default for
`rolling().var`). -/
def svar (ys : List ℚ) : ℚ :=
  ((ys.map fun y => (y - qmean ys) ^ 2).sum) / ((ys.length : ℚ) - 1)

/-- Embedding of `rolling_beta` (beta.py lines 5-9) on aligned, fully
numeric series: entry `t` is the trailing-window sample covariance of the
two series divided by the trailing-window sample variance of the benchmark.
pandas emits `NaN` (here `none`) before the window fills (`min_periods`
defaults to the window length), when `ddof = 1` leaves no degrees of
freedom (`window ≤ 1`), and when the denominator is zero (`0/0` and `c/0`
are non-finite floats, modeled as missing). -/
def rolling_beta (asset bench : List ℚ) (window : ℕ) : List (Option ℚ) :=
  (List.range asset.length).map fun t =>
    if t + 1 < window then none
    else if window ≤ 1 then none
    else
      let wa := (asset.take (t + 1)).drop (t + 1 - window)
      let wb := (bench.take (t + 1)).drop (t + 1 - window)
      let c := scov wa wb
      let v := svar wb
      if v = 0 then none else some (c / v)

lemma zip_self_eq_map (xs : List ℚ) : xs.zip xs = xs.map fun x => (x, x) := by
  induction xs with
  | nil => simp
  | cons x t ih => simp [ih]

/-- The self-covariance of a window is its sample variance. -/
lemma scov_self (ys : List ℚ) : scov ys ys = svar ys := by
  rw [scov, svar, zip_self_eq_map]
  simp [sq, Function.comp_def]

/-! ### Claim C9 -/

/-- Counterexample to C9 as stated: on the constant (zero-variance) series
`[0, 0]` with window 2, the entry at index 1 — where the window is filled —
is the missing sentinel (`0/0` is `NaN` in pandas), not `1.0`. -/
theorem C9_counterexample :
    rolling_beta [0, 0] [0, 0] 2 = [none, none] ∧ (none : Option ℚ) ≠ some 1 := by
  constructor
  · show (List.range 2).map _ = [none, none]
    norm_num [List.range_succ, rolling_beta, scov, svar, qmean]
  · simp

/-- C9 amended: `rolling_beta x x w` (window `w ≥ 2`) is missing before the
trailing window fills, and equals exactly `1.0` at every filled index whose
trailing window has non-zero sample variance; a zero-variance window gives
`0/0`, i.e. the missing sentinel, instead. -/
theorem C9_rolling_beta_self (x : List ℚ) (w t : ℕ) (hw : 2 ≤ w)
    (ht : t < x.length) :
    (t + 1 < w → (rolling_beta x x w).getD t (some 0) = none) ∧
    (w ≤ t + 1 → svar ((x.take (t + 1)).drop (t + 1 - w)) ≠ 0 →
      (rolling_beta x x w).getD t (some 0) = some 1) := by
  have hlen : t < ((List.range x.length).map fun s =>
      if s + 1 < w then none
      else if w ≤ 1 then none
      else
        let wa := (x.take (s + 1)).drop (s + 1 - w)
        let wb := (x.take (s + 1)).drop (s + 1 - w)
        let c := scov wa wb
        let v := svar wb
        if v = 0 then none else some (c / v)).length := by
    simpa using ht
  have hentry : (rolling_beta x x w).getD t (some 0) =
      (if t + 1 < w then none
       else if w ≤ 1 then none
       else
         let wa := (x.take (t + 1)).drop (t + 1 - w)
         let wb := (x.take (t + 1)).drop (t + 1 - w)
         let c := scov wa wb
         let v := svar wb
         if v = 0 then none else some (c / v)) := by
    rw [rolling_beta, List.getD_eq_getElem _ _ hlen]
    simp only [List.getElem_map, List.getElem_range]
  constructor
  · intro hfill
    rw [hentry, if_pos hfill]
  · intro hfill hvar
    have h1 : ¬(t + 1 < w) := not_lt.mpr hfill
    have h2 : ¬(w ≤ 1) := by omega
    rw [hentry, if_neg h1, if_neg h2]
    simp only
    rw [if_neg (by simpa [scov_self] using hvar)]
    rw [scov_self, div_self hvar]

/-- Witness for C9 (amended) at `x = [1, 2]`, `w = 2`, `t = 1`. -/
theorem C9_rolling_beta_self_witness :
    svar (((([1, 2] : List ℚ)).take 2).drop 0) ≠ 0 ∧
    (rolling_beta [1, 2] [1, 2] 2).getD 1 (some 0) = some 1 := by
  have hvar : svar (((([1, 2] : List ℚ)).take 2).drop 0) ≠ 0 := by
    norm_num [svar, qmean]
  refine ⟨hvar, ?_⟩
  have := (C9_rolling_beta_self [1, 2] 2 1 (by norm_num) (by norm_num)).2
    (by norm_num) (by simpa using hvar)
  simpa using this

/-! ### risklab/factors.py : factor regression -/

/-- Collects a row of factor observations if every entry is numeric. -/
def allSome : List (Option ℚ) → Option (List ℚ)
  | [] => some []
  | none :: _ => none
  | some x :: t => (allSome t).map (x :: ·)

/-- Embedding of `pd.concat([port.rename("y"), factors], axis=1).dropna()`
(factors.py line 12) on positionally aligned series: keep exactly the rows
where the portfolio return and every factor are numeric. -/
def joinRows (port : List (Option ℚ)) (factors : List (List (Option ℚ))) :
    List (ℚ × List ℚ) :=
  (port.zip factors).filterMap fun p =>
    match p.1, allSome p.2 with
    | some y, some fs => some (y, fs)
    | _, _ => none

/-- Value of the design matrix `X = [1 | factors]` at a joined row and
column `j` (column 0 is the prepended intercept). -/
def xval (row : ℚ × List ℚ) (j : ℕ) : ℚ :=
  if j = 0 then 1 else row.2.getD (j - 1) 0

/-- The Gram matrix `XᵗX` of the design matrix over the joined rows. -/
def designXtX (rows : List (ℚ × List ℚ)) (k : ℕ) : Matrix (Fin k) (Fin k) ℚ :=
  fun a b => (rows.map fun r => xval r a * xval r b).sum

/-- The moment vector `Xᵗy` over the joined rows. -/
def designXty (rows : List (ℚ × List ℚ)) (k : ℕ) : Fin k → ℚ :=
  fun a => (rows.map fun r => xval r a * r.1).sum

/-- Regression result record: coefficients, squared standard errors
(`σ²·diag((XᵗX)⁻¹)`; pandas reports their square roots, which are kept
squared here to stay rational — the square root cannot raise), `R²`
(`NaN`, i.e. `none`, when the total sum of squares is zero) and residual
degrees of freedom. -/
structure RegResult (k : ℕ) where
  coef : Fin k → ℚ
  varBetaDiag : Fin k → ℚ
  r2 : Option ℚ
  df_resid : ℕ

/-- Outcome of `factor_regression`: the two documented `ValueError`s, the
`LinAlgError` from `np.linalg.inv` on a singular Gram matrix, or a result
record. -/
inductive RegOutcome (k : ℕ) where
  | noOverlap : RegOutcome k
  | notEnough : RegOutcome k
  | singular : RegOutcome k
  | ok : RegResult k → RegOutcome k

/-- Embedding of `factor_regression` (factors.py): inner-join, raise
`noOverlap` on zero rows; `np.linalg.lstsq` (which cannot raise) solves the
least-squares problem; raise `notEnough` when `df_resid = n - k ≤ 0`; then
`np.linalg.inv(X.T@X)` raises `singular` exactly when the Gram matrix is
singular, and otherwise the result record is produced.  For a non-singular
Gram matrix the `lstsq` solution is the normal-equations solution
`(XᵗX)⁻¹Xᵗy`, written here with the explicit adjugate inverse. -/
def factor_regression (port : List (Option ℚ)) (factors : List (List (Option ℚ)))
    (m : ℕ) : RegOutcome (m + 1) :=
  let rows := joinRows port factors
  let n := rows.length
  if n = 0 then .noOverlap
  else if n ≤ m + 1 then .notEnough
  else
    let k := m + 1
    let XtX := designXtX rows k
    if XtX.det = 0 then .singular
    else
      let inv := (XtX.det)⁻¹ • XtX.adjugate
      let beta := inv.mulVec (designXty rows k)
      let rss := (rows.map fun r => (r.1 - ∑ j : Fin k, beta j * xval r j) ^ 2).sum
      let ybar := qmean (rows.map (·.1))
      let tss := (rows.map fun r => (r.1 - ybar) ^ 2).sum
      let sigma2 := rss / ((n : ℚ) - k)
      .ok { coef := beta
            varBetaDiag := fun j => sigma2 * inv j j
            r2 := if 0 < tss then some (1 - rss / tss) else none
            df_resid := n - k }

/-! ### Claim C7 -/

/-- Counterexample to C7 as stated: with 3 overlapping rows and 2
regressors (one constant factor plus the intercept, which are collinear),
the overlap strictly exceeds the regressor count yet the code does not
return a result record — `np.linalg.inv` raises `LinAlgError` on the
singular Gram matrix. -/
theorem C7_counterexample :
    (joinRows [some 1, some 2, some 4] [[some 1], [some 1], [some 1]]).length = 3 ∧
    factor_regression [some 1, some 2, some 4] [[some 1], [some 1], [some 1]] 1 =
      RegOutcome.singular := by
  have hrows : joinRows [some 1, some 2, some 4] [[some 1], [some 1], [some 1]] =
      [(1, [1]), (2, [1]), (4, [1])] := by
    simp [joinRows, allSome]
  have hdet : (designXtX [((1:ℚ), [(1:ℚ)]), (2, [1]), (4, [1])] 2).det = 0 := by
    rw [Matrix.det_fin_two]
    norm_num [designXtX, xval]
  refine ⟨by rw [hrows]; rfl, ?_⟩
  rw [factor_regression]
  simp only [hrows]
  norm_num [hdet]

/-- C7 amended: `factor_regression` fails with the insufficient-data
condition iff the inner join leaves zero rows, fails with the
insufficient-degrees-of-freedom condition iff the (positive) row count does
not exceed the regressor count `m + 1`, and otherwise — provided the Gram
matrix `XᵗX` is non-singular (full-rank regressors) — returns a result
record without raising; a singular Gram matrix raises `LinAlgError`
instead. -/
theorem C7_factor_regression (port : List (Option ℚ))
    (factors : List (List (Option ℚ))) (m : ℕ) :
    (factor_regression port factors m = RegOutcome.noOverlap ↔
      (joinRows port factors).length = 0) ∧
    (factor_regression port factors m = RegOutcome.notEnough ↔
      0 < (joinRows port factors).length ∧ (joinRows port factors).length ≤ m + 1) ∧
    (m + 1 < (joinRows port factors).length →
      (designXtX (joinRows port factors) (m + 1)).det ≠ 0 →
      ∃ res, factor_regression port factors m = RegOutcome.ok res) := by
  by_cases h0 : (joinRows port factors).length = 0
  · have houtcome : factor_regression port factors m = RegOutcome.noOverlap := by
      simp [factor_regression, h0]
    refine ⟨by rw [houtcome]; simp [h0], ?_, ?_⟩
    · rw [houtcome]
      simp [h0]
    · intro hlt _
      omega
  · by_cases h1 : (joinRows port factors).length ≤ m + 1
    · have houtcome : factor_regression port factors m = RegOutcome.notEnough := by
        rw [factor_regression]
        simp only [if_neg h0, if_pos h1]
      have hpos : 0 < (joinRows port factors).length := Nat.pos_of_ne_zero h0
      refine ⟨by rw [houtcome]; simp [h0], ?_, ?_⟩
      · rw [houtcome]
        simp [hpos, h1]
      · intro hlt _
        omega
    · by_cases h2 : (designXtX (joinRows port factors) (m + 1)).det = 0
      · have houtcome : factor_regression port factors m = RegOutcome.singular := by
          rw [factor_regression]
          simp only [if_neg h0, if_neg h1, if_pos h2]
        refine ⟨by rw [houtcome]; simp [h0], ?_, ?_⟩
        · rw [houtcome]
          simp [h1]
        · intro _ hdet
          exact absurd h2 hdet
      · have houtcome : ∃ res, factor_regression port factors m = RegOutcome.ok res := by
          rw [factor_regression]
          simp only [if_neg h0, if_neg h1, if_neg h2]
          exact ⟨_, rfl⟩
        obtain ⟨res, hres⟩ := houtcome
        refine ⟨by rw [hres]; simp [h0], ?_, fun _ _ => ⟨res, hres⟩⟩
        rw [hres]
        simp [h1]

/-- Witness for C7 (amended) at a concrete full-rank instance: 3 rows, one
non-constant factor. -/
theorem C7_factor_regression_witness :
    2 < (joinRows [some 1, some 2, some 3] [[some 1], [some 2], [some 4]]).length ∧
    (designXtX (joinRows [some 1, some 2, some 3] [[some 1], [some 2], [some 4]]) 2).det ≠ 0 ∧
    ∃ res, factor_regression [some 1, some 2, some 3] [[some 1], [some 2], [some 4]] 1 =
      RegOutcome.ok res := by
  have hrows : joinRows [some 1, some 2, some 3] [[some 1], [some 2], [some 4]] =
      [(1, [1]), (2, [2]), (3, [4])] := by
    simp [joinRows, allSome]
  have hlen : 2 < (joinRows [some 1, some 2, some 3] [[some 1], [some 2], [some 4]]).length := by
    rw [hrows]; norm_num
  have hdet : (designXtX (joinRows [some 1, some 2, some 3] [[some 1], [some 2], [some 4]]) 2).det ≠ 0 := by
    rw [hrows, Matrix.det_fin_two]
    norm_num [designXtX, xval]
  exact ⟨hlen, hdet,
    (C7_factor_regression [some 1, some 2, some 3] [[some 1], [some 2], [some 4]] 1).2.2
      hlen hdet⟩

/-! ### risklab/var.py : the inverse-normal approximator `norm_ppf` -/

/-- Finite float or a signed infinity, the possible outputs of the
inverse-normal routine. -/
inductive ExtR where
  | negInf : ExtR
  | posInf : ExtR
  | val : ℝ → ExtR

/-- Negation on `ExtR`, as IEEE negation acts on floats and infinities. -/
def ExtR.neg : ExtR → ExtR
  | negInf => posInf
  | posInf => negInf
  | val x => val (-x)

/-- Acklam coefficients `a[0..5]` from `_norm_ppf` (var.py lines 10-11). -/
def ppfA0 : ℝ := -39.69683028665376
def ppfA1 : ℝ := 220.9460984245205
def ppfA2 : ℝ := -275.9285104469687
def ppfA3 : ℝ := 138.3577518672690
def ppfA4 : ℝ := -30.66479806614716
def ppfA5 : ℝ := 2.506628277459239

/-- Acklam coefficients `b[0..4]` (var.py lines 12-13). -/
def ppfB0 : ℝ := -54.47609879822406
def ppfB1 : ℝ := 161.5858368580409
def ppfB2 : ℝ := -155.6989798598866
def ppfB3 : ℝ := 66.80131188771972
def ppfB4 : ℝ := -13.28068155288572

/-- Acklam coefficients `c[0..5]` (var.py lines 14-15). -/
def ppfC0 : ℝ := -0.007784894002430293
def ppfC1 : ℝ := -0.3223964580411365
def ppfC2 : ℝ := -2.400758277161838
def ppfC3 : ℝ := -2.549732539343734
def ppfC4 : ℝ := 4.374664141464968
def ppfC5 : ℝ := 2.938163982698783

/-- Acklam coefficients `d[0..3]` (var.py lines 16-17). -/
def ppfD0 : ℝ := 0.007784695709041462
def ppfD1 : ℝ := 0.3224671290700398
def ppfD2 : ℝ := 2.445134137142996
def ppfD3 : ℝ := 3.754408661907416

/-- Lower break point `plow = 0.02425` of `_norm_ppf`. -/
def pLow : ℝ := 0.02425

/-- Upper break point `phigh = 1 - 0.02425` of `_norm_ppf`. -/
def pHigh : ℝ := 1 - 0.02425

/-- Tail rational polynomial of `_norm_ppf` in `q` (the `c`/`d` Horner
expressions of var.py lines 20-26). -/
noncomputable def ppfTail (q : ℝ) : ℝ :=
  (((((ppfC0 * q + ppfC1) * q + ppfC2) * q + ppfC3) * q + ppfC4) * q + ppfC5) /
    ((((ppfD0 * q + ppfD1) * q + ppfD2) * q + ppfD3) * q + 1)

/-- Central rational polynomial of `_norm_ppf` in `q = p - 0.5`, with
`r = q*q` inlined (the `a`/`b` Horner expressions of var.py lines 27-30). -/
noncomputable def ppfCentral (q : ℝ) : ℝ :=
  (((((ppfA0 * (q * q) + ppfA1) * (q * q) + ppfA2) * (q * q) + ppfA3) * (q * q) + ppfA4) *
      (q * q) + ppfA5) * q /
    (((((ppfB0 * (q * q) + ppfB1) * (q * q) + ppfB2) * (q * q) + ppfB3) * (q * q) + ppfB4) *
      (q * q) + 1)

/-- Embedding of `_norm_ppf` (var.py lines 7-30): signed infinities at the
boundaries `p ≤ 0` and `p ≥ 1`, the tail polynomial in
`√(-2 ln p)` (resp. `√(-2 ln (1-p))`, negated) below `plow` and above
`phigh`, the central polynomial in `p - 0.5` between them. -/
noncomputable def norm_ppf (p : ℝ) : ExtR :=
  if p ≤ 0 then .negInf
  else if 1 ≤ p then .posInf
  else if p < pLow then .val (ppfTail (Real.sqrt (-2 * Real.log p)))
  else if pHigh < p then .val (-(ppfTail (Real.sqrt (-2 * Real.log (1 - p)))))
  else .val (ppfCentral (p - 0.5))

lemma ppfCentral_neg (q : ℝ) : ppfCentral (-q) = -ppfCentral q := by
  rw [ppfCentral, ppfCentral]
  simp only [neg_mul_neg]
  rw [mul_neg, neg_div]

/-! ### Claim C4 -/

/-- C4: the inverse-normal approximator is antisymmetric
(`Φ⁻¹(1-p) = -Φ⁻¹(p)` for `p ∈ (0,1)`), vanishes at `1/2`, is within
`1e-6` of `1.959964` at `0.975`, and returns `-∞` for `p ≤ 0` and `+∞`
for `p ≥ 1`. -/
theorem C4_norm_ppf :
    (∀ p : ℝ, 0 < p → p < 1 → norm_ppf (1 - p) = (norm_ppf p).neg) ∧
    norm_ppf (1/2) = ExtR.val 0 ∧
    (∃ x : ℝ, norm_ppf 0.975 = ExtR.val x ∧ |x - 1.959964| ≤ 1/1000000) ∧
    (∀ p : ℝ, p ≤ 0 → norm_ppf p = ExtR.negInf) ∧
    (∀ p : ℝ, 1 ≤ p → norm_ppf p = ExtR.posInf) := by
  have hlowhigh : pLow < pHigh := by norm_num [pLow, pHigh]
  have hsum : pLow + pHigh = 1 := by norm_num [pLow, pHigh]
  refine ⟨?_, ?_, ?_, ?_, ?_⟩
  · intro p h0 h1
    have hp0 : ¬(p ≤ 0) := not_le.mpr h0
    have hp1 : ¬(1 ≤ p) := not_le.mpr h1
    have hq0 : ¬(1 - p ≤ 0) := by push_neg; linarith
    have hq1 : ¬(1 ≤ 1 - p) := by push_neg; linarith
    by_cases hc1 : p < pLow
    · have hc1' : pHigh < 1 - p := by linarith
      have hc1'' : ¬(1 - p < pLow) := by push_neg; linarith
      rw [norm_ppf, if_neg hq0, if_neg hq1, if_neg hc1'', if_pos hc1']
      rw [norm_ppf, if_neg hp0, if_neg hp1, if_pos hc1]
      have harg : (1:ℝ) - (1 - p) = p := by ring
      rw [harg, ExtR.neg]
    · by_cases hc2 : pHigh < p
      · have hc2' : 1 - p < pLow := by linarith
        rw [norm_ppf, if_neg hq0, if_neg hq1, if_pos hc2']
        rw [norm_ppf, if_neg hp0, if_neg hp1, if_neg (by push_neg; linarith : ¬(p < pLow)),
          if_pos hc2]
        rw [ExtR.neg, neg_neg]
      · have hd1 : ¬(1 - p < pLow) := by push_neg; linarith
        have hd2 : ¬(pHigh < 1 - p) := by push_neg; linarith
        rw [norm_ppf, if_neg hq0, if_neg hq1, if_neg hd1, if_neg hd2]
        rw [norm_ppf, if_neg hp0, if_neg hp1, if_neg hc1, if_neg (by push_neg; linarith)]
        have harg : (1:ℝ) - p - 0.5 = -(p - 0.5) := by ring
        rw [harg, ppfCentral_neg, ExtR.neg]
  · rw [norm_ppf, if_neg (by norm_num), if_neg (by norm_num),
      if_neg (by norm_num [pLow]), if_neg (by norm_num [pHigh])]
    have : ppfCentral ((1:ℝ)/2 - 0.5) = 0 := by
      have harg : ((1:ℝ)/2 - 0.5) = 0 := by norm_num
      rw [harg, ppfCentral]
      simp
    rw [this]
  · refine ⟨ppfCentral ((0.975 : ℝ) - 0.5), ?_, ?_⟩
    · rw [norm_ppf, if_neg (by norm_num), if_neg (by norm_num),
        if_neg (by norm_num [pLow]), if_neg (by norm_num [pHigh])]
    · rw [ppfCentral]
      rw [abs_le]
      constructor <;>
        norm_num [ppfA0, ppfA1, ppfA2, ppfA3, ppfA4, ppfA5,
          ppfB0, ppfB1, ppfB2, ppfB3, ppfB4]
  · intro p hp
    rw [norm_ppf, if_pos hp]
  · intro p hp
    rw [norm_ppf, if_neg (by push_neg; linarith), if_pos hp]

/-- Witness for C4 at `p = 3/4` (antisymmetry instance) and `p = -1`,
`p = 2` (boundary instances). -/
theorem C4_norm_ppf_witness :
    norm_ppf (1 - 3/4) = (norm_ppf (3/4)).neg ∧
    norm_ppf (-1) = ExtR.negInf ∧ norm_ppf 2 = ExtR.posInf := by
  refine ⟨C4_norm_ppf.1 (3/4) (by norm_num) (by norm_num), ?_, ?_⟩
  · exact C4_norm_ppf.2.2.2.1 (-1) (by norm_num)
  · exact C4_norm_ppf.2.2.2.2 2 (by norm_num)

/-! ### risklab/metrics.py and the parametric VaR estimators -/

/-- Result of a float-valued Python function that may raise, produce `NaN`,
produce a signed infinity, or produce a number. -/
inductive RRes where
  | raise : RRes
  | nan : RRes
  | negInf : RRes
  | posInf : RRes
  | val : ℝ → RRes

/-- Embedding of `annualize_return` (metrics.py lines 5-6):
`(1+rets).prod() ** (p/len(rets)) - 1`.  The pandas product skips missing
values, but `len(rets)` counts them; on an empty series `p/len(rets)`
raises `ZeroDivisionError`.  A negative product with a non-integral
exponent is `NaN` under float `**`; with an integral exponent it is the
signed power. -/
noncomputable def annualize_return (rets : List (Option ℚ)) (p : ℚ) : RRes :=
  if rets.length = 0 then .raise
  else
    let base : ℚ := ((dropv rets).map fun x => 1 + x).prod
    let e : ℚ := p / rets.length
    if 0 ≤ base then .val ((base : ℝ) ^ (e : ℝ) - 1)
    else if e.den = 1 then .val ((base : ℝ) ^ e.num - 1)
    else .nan

/-- Embedding of `annualize_vol` (metrics.py lines 8-9):
`rets.std(ddof=0) * sqrt(p)`; the pandas standard deviation of a series
with no numeric entry is `NaN`. -/
noncomputable def annualize_vol (rets : List (Option ℚ)) (p : ℚ) : RRes :=
  let l := dropv rets
  if l = [] then .nan
  else .val (Real.sqrt (var0 l : ℝ) * Real.sqrt (p : ℝ))

/-- Embedding of `sharpe` (metrics.py lines 11-15) at a positive
`periods_per_year` (the default 252): excess returns, `NaN` when the
excess series has no numeric entry (its deviation and mean are `NaN`) and
when the annualized volatility is exactly zero, else the ratio. -/
noncomputable def sharpe (rets : List (Option ℚ)) (rf p : ℚ) : RRes :=
  let excess := rets.map (Option.map fun x => x - rf / p)
  let l := dropv excess
  if l = [] then .nan
  else if var0 l = 0 then .nan
  else .val ((qmean l : ℝ) * (p : ℝ) / (Real.sqrt (var0 l : ℝ) * Real.sqrt (p : ℝ)))

/-- Embedding of `sortino` (metrics.py lines 17-22): like `sharpe` but
the deviation is taken over the strictly negative excess returns only
(`NaN` entries compare false and are excluded by the mask).  An empty
downside set gives a `NaN` deviation, hence a `NaN` result. -/
noncomputable def sortino (rets : List (Option ℚ)) (rf p : ℚ) : RRes :=
  let excess := rets.map (Option.map fun x => x - rf / p)
  let l := dropv excess
  let downside := l.filter (· < 0)
  if downside = [] then .nan
  else if var0 downside = 0 then .nan
  else .val ((qmean l : ℝ) * (p : ℝ) / (Real.sqrt (var0 downside : ℝ) * Real.sqrt (p : ℝ)))

/-- Running product that skips missing entries, as pandas `cumprod` does
(the missing positions stay missing, the accumulator carries across). -/
def cumprodSkip (acc : ℚ) : List (Option ℚ) → List (Option ℚ)
  | [] => []
  | none :: t => none :: cumprodSkip acc t
  | some x :: t => some (acc * x) :: cumprodSkip (acc * x) t

/-- Running maximum that skips missing entries, as pandas `cummax` does. -/
def cummaxSkip (acc : Option ℚ) : List (Option ℚ) → List (Option ℚ)
  | [] => []
  | none :: t => none :: cummaxSkip acc t
  | some x :: t =>
      let m := match acc with
        | none => x
        | some a => max a x
      some m :: cummaxSkip (some m) t

/-- Elementwise `wealth/peak - 1` of the drawdown path; positions missing
in the inputs stay missing, and a zero peak (a non-finite float ratio) is
modeled as missing. -/
def ddRatio (w pk : Option ℚ) : Option ℚ :=
  match w, pk with
  | some a, some b => if b = 0 then none else some (a / b - 1)
  | _, _ => none

/-- Embedding of `drawdown` (metrics.py lines 24-28): cumulative wealth
`(1+rets).cumprod()`, its running maximum, and `wealth/peak - 1`, as a
path with missing entries preserved. -/
def drawdown (rets : List (Option ℚ)) : List (Option ℚ) :=
  let wealth := cumprodSkip 1 (rets.map (Option.map fun x => 1 + x))
  let peak := cummaxSkip none wealth
  List.zipWith ddRatio wealth peak

/-- Embedding of `max_drawdown` (metrics.py lines 30-31): the minimum of
the drawdown path, skipping missing entries; `NaN` (here `none`) when no
numeric entry exists. -/
def max_drawdown (rets : List (Option ℚ)) : Option ℚ :=
  ((drawdown rets).filterMap id).min?

/-- Embedding of `hit_rate` (metrics.py lines 33-34): `(rets > 0).mean()`.
The comparison maps a missing entry to `False`, so the denominator is the
full length including missing entries; the mean of an empty boolean
series is `NaN`. -/
def hit_rate (rets : List (Option ℚ)) : Option ℚ :=
  if rets.length = 0 then none
  else some (((rets.countP fun o => match o with
    | some x => decide (0 < x)
    | none => false) : ℕ) / (rets.length : ℚ))

/-- Embedding of `var_parametric_normal` (var.py lines 41-45):
`mean + std * Φ⁻¹(1-α)`.  With no numeric entry both moments are `NaN`.
An infinite quantile (only when `α ∉ (0,1)`) scales by the deviation:
`0 * ∞` is `NaN`, otherwise the signed infinity. -/
noncomputable def var_parametric_normal (rets : List (Option ℚ)) (α : ℚ) : RRes :=
  let r := dropv rets
  if r = [] then .nan
  else
    match norm_ppf (1 - (α : ℝ)) with
    | .val z => .val ((qmean r : ℝ) + Real.sqrt (var0 r : ℝ) * z)
    | .negInf => if var0 r = 0 then .nan else .negInf
    | .posInf => if var0 r = 0 then .nan else .posInf

/-- Sum of squared deviations (the `m2` of pandas `skew`/`kurt`). -/
def m2s (l : List ℚ) : ℚ := (l.map fun x => (x - qmean l) ^ 2).sum

/-- Sum of cubed deviations (the `m3` of pandas `skew`). -/
def m3s (l : List ℚ) : ℚ := (l.map fun x => (x - qmean l) ^ 3).sum

/-- Sum of fourth-power deviations (the `m4` of pandas `kurt`). -/
def m4s (l : List ℚ) : ℚ := (l.map fun x => (x - qmean l) ^ 4).sum

/-- Embedding of `var_cornish_fisher` (var.py lines 47-54), with the pandas
sample skewness (`NaN` below 3 observations, `0` on zero variance,
`n·√(n-1)/(n-2) · m3/m2^{3/2}` otherwise) and pandas excess kurtosis
(`NaN` below 4 observations, `0` on zero variance,
`n(n+1)(n-1)·m4 / ((n-2)(n-3)·m2²) - 3(n-1)²/((n-2)(n-3))` otherwise).
A `NaN` skew or kurtosis propagates through `z_cf` to a `NaN` result, as
does an infinite `z` (possible only for `α ∉ (0,1)`), whose odd and even
powers mix infinities of both signs. -/
noncomputable def var_cornish_fisher (rets : List (Option ℚ)) (α : ℚ) : RRes :=
  let r := dropv rets
  let n := r.length
  if r = [] then .nan
  else
    match norm_ppf (1 - (α : ℝ)) with
    | .val z =>
        if n < 3 then .nan
        else if n < 4 then .nan
        else
          let s : ℝ := if m2s r = 0 then 0
            else (n : ℝ) * Real.sqrt ((n : ℝ) - 1) / ((n : ℝ) - 2) *
              (m3s r : ℝ) / ((m2s r : ℝ) ^ ((3 : ℝ)/2))
          let k : ℝ := if m2s r = 0 then 0
            else (n : ℝ) * ((n : ℝ) + 1) * ((n : ℝ) - 1) * (m4s r : ℝ) /
                (((n : ℝ) - 2) * ((n : ℝ) - 3) * (m2s r : ℝ) ^ 2) -
              3 * ((n : ℝ) - 1) ^ 2 / (((n : ℝ) - 2) * ((n : ℝ) - 3))
          let zcf := z + (z ^ 2 - 1) * s / 6 + (z ^ 3 - 3 * z) * k / 24 -
            (2 * z ^ 3 - 5 * z) * s ^ 2 / 36
          .val ((qmean r : ℝ) + Real.sqrt (var0 r : ℝ) * zcf)
    | _ => .nan

/-! ### Helper lemmas about dropping missing values -/

lemma dropv_cons_none (t : List (Option ℚ)) : dropv (none :: t) = dropv t := by
  simp [dropv]

lemma dropv_cons_some (x : ℚ) (t : List (Option ℚ)) :
    dropv (some x :: t) = x :: dropv t := by
  simp [dropv]

lemma dropv_map_some (l : List ℚ) : dropv (l.map some) = l := by
  induction l with
  | nil => rfl
  | cons x t ih => simp [dropv]

lemma dropv_optionMap (f : ℚ → ℚ) (r : List (Option ℚ)) :
    dropv (r.map (Option.map f)) = (dropv r).map f := by
  induction r with
  | nil => rfl
  | cons o t ih => cases o <;> simpa [dropv] using ih

lemma dropv_replicate_some (n : ℕ) (c : ℚ) :
    dropv (List.replicate n (some c)) = List.replicate n c := by
  induction n with
  | zero => rfl
  | succ k ih => simp [List.replicate_succ, dropv]

lemma qmean_replicate (n : ℕ) (c : ℚ) (hn : n ≠ 0) :
    qmean (List.replicate n c) = c := by
  rw [qmean, List.sum_replicate, List.length_replicate, nsmul_eq_mul]
  have : (n : ℚ) ≠ 0 := Nat.cast_ne_zero.mpr hn
  field_simp

lemma var0_replicate (n : ℕ) (c : ℚ) : var0 (List.replicate n c) = 0 := by
  rcases Nat.eq_zero_or_pos n with rfl | hn
  · simp [var0]
  · rw [var0, qmean_replicate n c (Nat.pos_iff_ne_zero.mp hn), List.map_replicate]
    simp

lemma filter_lt_zero_replicate (n : ℕ) (c : ℚ) :
    (List.replicate n c).filter (· < 0) =
      if c < 0 then List.replicate n c else [] := by
  induction n with
  | zero => simp
  | succ k ih =>
      by_cases hc : c < 0 <;> simp [List.replicate_succ, List.filter_cons, hc, ih]

/-- Dropping missing input entries commutes with the skipping cumulative
product. -/
lemma cumprodSkip_dropv (a : ℚ) (r : List (Option ℚ)) :
    cumprodSkip a ((dropv r).map some) = (dropv (cumprodSkip a r)).map some := by
  induction r generalizing a with
  | nil => rfl
  | cons o t ih =>
      cases o with
      | none => rw [dropv_cons_none]; rw [show cumprodSkip a (none :: t) = none :: cumprodSkip a t from rfl, dropv_cons_none]; exact ih a
      | some x =>
          rw [dropv_cons_some]
          rw [show cumprodSkip a (some x :: t) = some (a * x) :: cumprodSkip (a * x) t from rfl]
          rw [dropv_cons_some]
          simp only [List.map_cons]
          rw [show cumprodSkip a (some x :: (dropv t).map some) =
            some (a * x) :: cumprodSkip (a * x) ((dropv t).map some) from rfl]
          rw [ih (a * x)]

/-- The numeric entries of the drawdown path are unchanged when the
missing entries of the wealth path are removed first. -/
lemma dd_filter_dropv (m : Option ℚ) (w : List (Option ℚ)) :
    (List.zipWith ddRatio ((dropv w).map some)
      (cummaxSkip m ((dropv w).map some))).filterMap id =
    (List.zipWith ddRatio w (cummaxSkip m w)).filterMap id := by
  induction w generalizing m with
  | nil => rfl
  | cons o t ih =>
      cases o with
      | none =>
          rw [dropv_cons_none]
          rw [show cummaxSkip m (none :: t) = none :: cummaxSkip m t from rfl]
          rw [show List.zipWith ddRatio (none :: t) (none :: cummaxSkip m t) =
            ddRatio none none :: List.zipWith ddRatio t (cummaxSkip m t) from rfl]
          rw [show ddRatio none none = none from rfl]
          rw [List.filterMap_cons]
          exact ih m
      | some x =>
          rw [dropv_cons_some]
          cases m with
          | none =>
              simp only [List.map_cons]
              rw [show cummaxSkip none (some x :: (dropv t).map some) =
                some x :: cummaxSkip (some x) ((dropv t).map some) from rfl]
              rw [show cummaxSkip none (some x :: t) =
                some x :: cummaxSkip (some x) t from rfl]
              rw [show List.zipWith ddRatio (some x :: (dropv t).map some)
                  (some x :: cummaxSkip (some x) ((dropv t).map some)) =
                ddRatio (some x) (some x) ::
                  List.zipWith ddRatio ((dropv t).map some)
                    (cummaxSkip (some x) ((dropv t).map some)) from rfl]
              rw [show List.zipWith ddRatio (some x :: t) (some x :: cummaxSkip (some x) t) =
                ddRatio (some x) (some x) ::
                  List.zipWith ddRatio t (cummaxSkip (some x) t) from rfl]
              rw [List.filterMap_cons, List.filterMap_cons]
              cases hdd : id (ddRatio (some x) (some x)) with
              | none => exact ih (some x)
              | some y => rw [ih (some x)]
          | some v =>
              simp only [List.map_cons]
              rw [show cummaxSkip (some v) (some x :: (dropv t).map some) =
                some (max v x) :: cummaxSkip (some (max v x)) ((dropv t).map some) from rfl]
              rw [show cummaxSkip (some v) (some x :: t) =
                some (max v x) :: cummaxSkip (some (max v x)) t from rfl]
              rw [show List.zipWith ddRatio (some x :: (dropv t).map some)
                  (some (max v x) :: cummaxSkip (some (max v x)) ((dropv t).map some)) =
                ddRatio (some x) (some (max v x)) ::
                  List.zipWith ddRatio ((dropv t).map some)
                    (cummaxSkip (some (max v x)) ((dropv t).map some)) from rfl]
              rw [show List.zipWith ddRatio (some x :: t)
                  (some (max v x) :: cummaxSkip (some (max v x)) t) =
                ddRatio (some x) (some (max v x)) ::
                  List.zipWith ddRatio t (cummaxSkip (some (max v x)) t) from rfl]
              rw [List.filterMap_cons, List.filterMap_cons]
              cases hdd : id (ddRatio (some x) (some (max v x))) with
              | none => exact ih (some (max v x))
              | some y => rw [ih (some (max v x))]

/-! ### Claim C1 -/

/-- Counterexample to C1 as stated: on the degenerate (empty) series,
`var_historical` does not return the `NaN` sentinel — `np.quantile` of an
empty array raises. -/
theorem C1_counterexample :
    var_historical ([] : List (Option ℚ)) (95/100) = QRes.raise ∧
    var_historical ([] : List (Option ℚ)) (95/100) ≠ QRes.nan := by
  constructor
  · rfl
  · rw [show var_historical ([] : List (Option ℚ)) (95/100) = QRes.raise from rfl]
    simp

/-- C1 amended: on an empty series, `annualize_return` raises
(`ZeroDivisionError` from `p/len`), and `var_historical`/`cvar_historical`
raise (`np.quantile` of an empty array); the remaining metrics return the
`NaN`/missing sentinel (`drawdown` an empty path) without raising.  On
zero-variance input, `sharpe` and `sortino` return `NaN`, while e.g.
`annualize_vol` returns the ordinary number `0`, not `NaN`. -/
theorem C1_degenerate_policy :
    annualize_return ([] : List (Option ℚ)) 252 = RRes.raise ∧
    var_historical ([] : List (Option ℚ)) (95/100) = QRes.raise ∧
    cvar_historical ([] : List (Option ℚ)) (95/100) = QRes.raise ∧
    annualize_vol ([] : List (Option ℚ)) 252 = RRes.nan ∧
    sharpe ([] : List (Option ℚ)) 0 252 = RRes.nan ∧
    sortino ([] : List (Option ℚ)) 0 252 = RRes.nan ∧
    drawdown ([] : List (Option ℚ)) = [] ∧
    max_drawdown ([] : List (Option ℚ)) = none ∧
    hit_rate ([] : List (Option ℚ)) = none ∧
    var_parametric_normal ([] : List (Option ℚ)) (95/100) = RRes.nan ∧
    var_cornish_fisher ([] : List (Option ℚ)) (95/100) = RRes.nan ∧
    (∀ (c : ℚ) (n : ℕ), 1 ≤ n →
      sharpe (List.replicate n (some c)) 0 252 = RRes.nan ∧
      sortino (List.replicate n (some c)) 0 252 = RRes.nan ∧
      annualize_vol (List.replicate n (some c)) 252 = RRes.val 0) := by
  refine ⟨rfl, rfl, rfl, rfl, rfl, rfl, rfl, rfl, rfl, rfl, rfl, ?_⟩
  intro c n hn
  have hne : n ≠ 0 := by omega
  have hrep : ¬(List.replicate n (c - 0/252) = []) := by simp [hne]
  refine ⟨?_, ?_, ?_⟩
  · rw [sharpe]
    simp only [List.map_replicate, Option.map_some']
    rw [dropv_replicate_some]
    rw [if_neg hrep, if_pos (var0_replicate n _)]
  · rw [sortino]
    simp only [List.map_replicate, Option.map_some']
    rw [dropv_replicate_some, filter_lt_zero_replicate]
    by_cases hc : c - 0/252 < 0
    · rw [if_pos hc, if_neg hrep, if_pos (var0_replicate n _)]
    · rw [if_neg hc]
      rw [if_pos rfl]
  · rw [annualize_vol]
    rw [dropv_replicate_some]
    have hrep' : ¬(List.replicate n c = []) := by simp [hne]
    rw [if_neg hrep', var0_replicate]
    norm_num

/-- Witness for C1 (amended) at the concrete constant series of three
entries `5`. -/
theorem C1_degenerate_policy_witness :
    (1 : ℕ) ≤ 3 ∧ sharpe (List.replicate 3 (some (5:ℚ))) 0 252 = RRes.nan := by
  refine ⟨by norm_num, ?_⟩
  exact (C1_degenerate_policy.2.2.2.2.2.2.2.2.2.2.2 5 3 (by norm_num)).1

/-! ### Claim C8 -/

/-- Counterexample to C8 as stated: `hit_rate` does not drop missing
values — its denominator is the full series length — so on `[1, NaN]` it
returns `1/2` while on the missing-dropped series `[1]` it returns `1`. -/
theorem C8_counterexample :
    hit_rate [some 1, none] ≠ hit_rate ((dropv [some 1, none]).map some) := by
  have h1 : dropv [some (1:ℚ), none] = [1] := by simp [dropv]
  rw [h1]
  norm_num [hit_rate, List.countP_cons, List.countP_nil]

/-- C8 amended: the VaR-family functions drop missing values explicitly,
and `annualize_vol`, `sharpe`, `sortino` and `max_drawdown` rely on the
missing-skipping pandas reductions, which agree with dropping; so each of
these metrics is unchanged when missing entries are removed first.  The
exceptions (not listed here) are `annualize_return` and `hit_rate`, whose
formulas use the raw series length including missing entries, and the
`drawdown` path, which preserves missing positions. -/
theorem C8_drop_missing (rets : List (Option ℚ)) (rf p α : ℚ) :
    annualize_vol rets p = annualize_vol ((dropv rets).map some) p ∧
    sharpe rets rf p = sharpe ((dropv rets).map some) rf p ∧
    sortino rets rf p = sortino ((dropv rets).map some) rf p ∧
    max_drawdown rets = max_drawdown ((dropv rets).map some) ∧
    var_historical rets α = var_historical ((dropv rets).map some) α ∧
    cvar_historical rets α = cvar_historical ((dropv rets).map some) α ∧
    var_parametric_normal rets α = var_parametric_normal ((dropv rets).map some) α ∧
    var_cornish_fisher rets α = var_cornish_fisher ((dropv rets).map some) α := by
  refine ⟨?_, ?_, ?_, ?_, ?_, ?_, ?_, ?_⟩
  · rw [annualize_vol, annualize_vol, dropv_map_some]
  · rw [sharpe, sharpe]
    rw [show ((dropv rets).map some).map (Option.map fun x => x - rf / p) =
      ((dropv rets).map fun x => x - rf / p).map some from by
        rw [List.map_map, List.map_map]; rfl]
    rw [dropv_map_some, dropv_optionMap]
  · rw [sortino, sortino]
    rw [show ((dropv rets).map some).map (Option.map fun x => x - rf / p) =
      ((dropv rets).map fun x => x - rf / p).map some from by
        rw [List.map_map, List.map_map]; rfl]
    rw [dropv_map_some, dropv_optionMap]
  · rw [max_drawdown, max_drawdown, drawdown, drawdown]
    rw [show ((dropv rets).map some).map (Option.map fun x => 1 + x) =
      ((dropv rets).map fun x => 1 + x).map some from by
        rw [List.map_map, List.map_map]; rfl]
    rw [show (dropv rets).map (fun x => 1 + x) =
      dropv (rets.map (Option.map fun x => 1 + x)) from (dropv_optionMap _ _).symm]
    rw [cumprodSkip_dropv]
    rw [dd_filter_dropv]
  · rw [var_historical, var_historical, dropv_map_some]
  · rw [cvar_historical, cvar_historical, var_historical, var_historical, dropv_map_some]
  · rw [var_parametric_normal, var_parametric_normal, dropv_map_some]
  · rw [var_cornish_fisher, var_cornish_fisher, dropv_map_some]

/-! ### risklab/portfolio.py : `allocate_static`

A return matrix is a list of rows `(date, per-symbol returns)`, already
restricted to the columns shared with the weight vector (the code's
`returns.loc[:, cols]`), fully numeric, with one row per trading day.
Dates are natural numbers.  `resample(rule)` groups rows by a calendar
period; the embedding abstracts the calendar rule as a `label` function
sending each date to its period-end label (for `"ME"` the month-end date
of the date's month, and so on), and assumes every period between the
first and last observation contains an observation (no empty resample
bins — true of contiguous daily data). -/

/-- Wealth path of the buy-and-hold branch: per-symbol cumulative products
of `1 + r` (`(1.0 + R).cumprod()`), weighted by the normalized weights and
summed across symbols (`(wealth * w).sum(axis=1)`), carrying the
per-symbol accumulator. -/
def wealthRows (wn : List ℚ) (acc : List ℚ) : List (ℕ × List ℚ) → List (ℕ × ℚ)
  | [] => []
  | (d, r) :: rest =>
      let acc' := List.zipWith (fun a x => a * (1 + x)) acc r
      (d, (List.zipWith (· * ·) wn acc').sum) :: wealthRows wn acc' rest

/-- Percentage change against the previous wealth.  A zero previous
wealth makes the float ratio non-finite (pandas keeps `±inf` and drops
the `0/0` `NaN`); both are modeled as a missing entry here. -/
def pctGo (prev : ℚ) : List (ℕ × ℚ) → List (ℕ × Option ℚ)
  | [] => []
  | (d, w) :: rest =>
      (d, if prev = 0 then none else some (w / prev - 1)) :: pctGo w rest

/-- Embedding of `port_wealth.pct_change().dropna()`: the first row (no
prior reference, always `NaN`) is dropped, later rows hold the ratio
change against the previous wealth. -/
def pctChangeDrop : List (ℕ × ℚ) → List (ℕ × Option ℚ)
  | [] => []
  | (_, w0) :: rest => pctGo w0 rest

/-- Labels produced by `resample(rule)` over the data: the period-end
label of every row's date. -/
def periodLabels (label : ℕ → ℕ) (rows : List (ℕ × List ℚ)) : List ℕ :=
  rows.map fun p => label p.1

/-- Per-period portfolio return for the period labeled `L`: compound
`∏(1+r)` per symbol over the rows of that period, subtract 1, and apply
the normalized weights (`(grouped * w).sum(axis=1)`). -/
def periodReturn (wn : List ℚ) (label : ℕ → ℕ) (rows : List (ℕ × List ℚ))
    (L : ℕ) : ℚ :=
  let compounded := rows.foldl
    (fun acc p =>
      if label p.1 = L then List.zipWith (fun a x => a * (1 + x)) acc p.2 else acc)
    (List.replicate wn.length 1)
  (List.zipWith (fun wj c => wj * (c - 1)) wn compounded).sum

/-- The forward-fill selector of `reindex(R.index, method="ffill")`: the
last (largest) period-end label at or before the date, if any. -/
def lastLabelLE (labels : List ℕ) (d : ℕ) : Option ℕ :=
  (labels.filter (· ≤ d)).max?

/-- Embedding of `allocate_static` (portfolio.py lines 20-56) on the
column-restricted return matrix: empty input gives an empty series;
`rebalance=None` is the buy-and-hold branch (cumulative weighted wealth,
then `pct_change().dropna()`); a periodic rule compounds each period,
weights it, and forward-fills the per-period value to the daily index
(dates before the first period-end label have no fill value and stay
`NaN`). -/
def allocate_static (rows : List (ℕ × List ℚ)) (w : List ℚ)
    (rule : Option (ℕ → ℕ)) : List (ℕ × Option ℚ) :=
  if rows = [] then []
  else
    let wn := normalize_weights w
    match rule with
    | none => pctChangeDrop (wealthRows wn (List.replicate wn.length 1) rows)
    | some label =>
        let labels := periodLabels label rows
        rows.map fun p => (p.1, (lastLabelLE labels p.1).map (periodReturn wn label rows))

/-- Reference wealth scan for a single-symbol universe with unit weight. -/
def scanWealth (c : ℚ) : List (ℕ × ℚ) → List (ℕ × ℚ)
  | [] => []
  | (d, x) :: rest => (d, c * (1 + x)) :: scanWealth (c * (1 + x)) rest

/-- Both branches of `allocate_static`, unfolded for non-empty input. -/
lemma allocate_static_buyhold (rows : List (ℕ × List ℚ)) (w : List ℚ)
    (hne : rows ≠ []) :
    allocate_static rows w none =
      pctChangeDrop (wealthRows (normalize_weights w)
        (List.replicate (normalize_weights w).length 1) rows) := by
  rw [allocate_static, if_neg hne]

lemma allocate_static_periodic (rows : List (ℕ × List ℚ)) (w : List ℚ)
    (label : ℕ → ℕ) (hne : rows ≠ []) :
    allocate_static rows w (some label) =
      rows.map fun p => (p.1, (lastLabelLE (periodLabels label rows) p.1).map
        (periodReturn (normalize_weights w) label rows)) := by
  rw [allocate_static, if_neg hne]

lemma wealthRows_single (c : ℚ) (rows : List (ℕ × ℚ)) :
    wealthRows [1] [c] (rows.map fun q => (q.1, [q.2])) = scanWealth c rows := by
  induction rows generalizing c with
  | nil => rfl
  | cons q t ih =>
      obtain ⟨d, x⟩ := q
      simp only [List.map_cons, wealthRows, scanWealth, List.zipWith, List.sum_cons,
        List.sum_nil]
      rw [show (1 : ℚ) * (c * (1 + x)) + 0 = c * (1 + x) from by ring]
      rw [ih (c * (1 + x))]

lemma pctGo_scanWealth (c : ℚ) (hc : c ≠ 0) (rows : List (ℕ × ℚ))
    (hr : ∀ q ∈ rows, 1 + q.2 ≠ 0) :
    pctGo c (scanWealth c rows) = rows.map fun q => (q.1, some q.2) := by
  induction rows generalizing c with
  | nil => rfl
  | cons q t ih =>
      obtain ⟨d, x⟩ := q
      have hx : 1 + x ≠ 0 := hr (d, x) (List.mem_cons_self _ _)
      have hc' : c * (1 + x) ≠ 0 := mul_ne_zero hc hx
      simp only [scanWealth, pctGo, List.map_cons]
      rw [if_neg hc]
      rw [show c * (1 + x) / c - 1 = x from by
        rw [mul_div_cancel_left₀ _ hc]; ring]
      rw [ih (c * (1 + x)) hc' fun q hq => hr q (List.mem_cons_of_mem _ hq)]

/-! ### Claim C5 -/

/-- Counterexample to C5 as stated: with a single-symbol universe and
`rebalance=None`, the output is not the symbol's own series — the first
observation is consumed by `pct_change().dropna()`. -/
theorem C5_counterexample :
    allocate_static [(0, [1/10]), (1, [1/5])] [1] none ≠
      [(0, some (1/10)), (1, some (1/5))] := by
  intro h
  have hlen := congrArg List.length h
  rw [allocate_static_buyhold _ _ (by simp)] at hlen
  rw [show normalize_weights [1] = [1/1] from by
    rw [normalize_weights]; norm_num] at hlen
  simp [wealthRows, pctChangeDrop, pctGo] at hlen

/-- C5 amended: with a single-symbol effective universe (non-zero weight)
and `rebalance=None`, `allocate_static` returns the symbol's own return
series with its first observation dropped — the same dates and values
from the second observation onward (assuming no per-period total loss,
`1 + r ≠ 0`, so the wealth path never hits zero). -/
theorem C5_buyhold_single (rows : List (ℕ × ℚ)) (a : ℚ) (ha : a ≠ 0)
    (hr : ∀ q ∈ rows, 1 + q.2 ≠ 0) :
    allocate_static (rows.map fun q => (q.1, [q.2])) [a] none =
      rows.tail.map fun q => (q.1, some q.2) := by
  have hwn : normalize_weights [a] = [1] := by
    rw [normalize_weights]
    simp only [List.sum_cons, List.sum_nil, add_zero, ne_eq, ha, not_false_eq_true,
      if_true, List.map_cons, List.map_nil]
    rw [div_self ha]
  cases rows with
  | nil => rfl
  | cons q t =>
      obtain ⟨d, x⟩ := q
      have hx : 1 + x ≠ 0 := hr (d, x) (List.mem_cons_self _ _)
      rw [allocate_static_buyhold _ _ (by simp)]
      rw [hwn]
      rw [show (List.replicate (List.length [(1:ℚ)]) 1) = [(1:ℚ)] from rfl]
      rw [show List.map (fun q : ℕ × ℚ => (q.1, [q.2])) ((d, x) :: t) =
        (d, [x]) :: List.map (fun q : ℕ × ℚ => (q.1, [q.2])) t from rfl]
      rw [show ((d, [x]) : ℕ × List ℚ) :: List.map (fun q : ℕ × ℚ => (q.1, [q.2])) t =
        List.map (fun q : ℕ × ℚ => (q.1, [q.2])) ((d, x) :: t) from rfl]
      rw [wealthRows_single]
      rw [show scanWealth 1 ((d, x) :: t) =
        (d, 1 * (1 + x)) :: scanWealth (1 * (1 + x)) t from rfl]
      rw [pctChangeDrop]
      rw [pctGo_scanWealth (1 * (1 + x)) (by simpa using hx) t
        fun q hq => hr q (List.mem_cons_of_mem _ hq)]
      rfl

/-- Witness for C5 (amended) at the concrete two-day single-symbol
matrix `[(0, 1/10), (1, 1/5)]` with weight `2`. -/
theorem C5_buyhold_single_witness :
    (2 : ℚ) ≠ 0 ∧
    allocate_static [(0, [1/10]), (1, [1/5])] [2] none = [(1, some (1/5))] := by
  have ha : (2 : ℚ) ≠ 0 := by norm_num
  have hr : ∀ q ∈ [((0 : ℕ), (1/10 : ℚ)), (1, 1/5)], 1 + q.2 ≠ 0 := by
    intro q hq
    rcases List.mem_cons.mp hq with rfl | hq'
    · norm_num
    · rcases List.mem_cons.mp hq' with rfl | hq''
      · norm_num
      · simp at hq''
  have := C5_buyhold_single [((0 : ℕ), (1/10 : ℚ)), (1, 1/5)] 2 ha hr
  exact ⟨ha, by simpa using this⟩

/-! ### Claim C6 -/

/-- Counterexample to C6 as stated: dates 2 and 3 lie in the same
calendar period (both have period-end label 3), yet the periodic output
differs between them — the value changes at the period-end date 3 inside
the period, because the per-period value is forward-filled from each
period-end label to the next. -/
theorem C6_counterexample :
    (fun d => if d < 2 then 1 else 3) 2 = (fun d => if d < 2 then 1 else 3) 3 ∧
    ((allocate_static [(0, [1/10]), (1, [0]), (2, [1/2]), (3, [0])] [1]
        (some fun d => if d < 2 then 1 else 3)).getD 2 (0, none)).2 ≠
      ((allocate_static [(0, [1/10]), (1, [0]), (2, [1/2]), (3, [0])] [1]
        (some fun d => if d < 2 then 1 else 3)).getD 3 (0, none)).2 := by
  constructor
  · norm_num
  · rw [allocate_static_periodic _ _ _ (by simp)]
    simp only [periodLabels, List.map_cons, List.map_nil]
    norm_num [normalize_weights, lastLabelLE, List.max?, periodReturn, List.getD]

/-- C6 amended: under a periodic rule the output is a stepwise series
that can change only at period-end labels: for any two row dates
`dᵢ ≤ dⱼ` such that no period-end label of any data row lies in the
half-open window `(dᵢ, dⱼ]`, the output values at the two dates are
equal.  (In particular the value is constant from one period-end date to
the day before the next, and the days of a calendar period before its
period-end still hold the previous period's value, so the series is not
constant within each calendar period.) -/
theorem C6_periodic_stepwise (rows : List (ℕ × List ℚ)) (w : List ℚ)
    (label : ℕ → ℕ) (i j : ℕ) (hi : i < rows.length) (hj : j < rows.length)
    (hij : (rows.get ⟨i, hi⟩).1 ≤ (rows.get ⟨j, hj⟩).1)
    (hno : ∀ p ∈ rows,
      ¬((rows.get ⟨i, hi⟩).1 < label p.1 ∧ label p.1 ≤ (rows.get ⟨j, hj⟩).1)) :
    ((allocate_static rows w (some label)).getD i (0, none)).2 =
      ((allocate_static rows w (some label)).getD j (0, none)).2 := by
  have hne : rows ≠ [] := by
    intro h
    rw [h] at hi
    simp at hi
  simp only [List.get_eq_getElem] at hij hno
  have hsel : lastLabelLE (periodLabels label rows) rows[i].1 =
      lastLabelLE (periodLabels label rows) rows[j].1 := by
    rw [lastLabelLE, lastLabelLE]
    congr 1
    apply List.filter_congr
    intro L hL
    obtain ⟨p, hp, rfl⟩ := List.mem_map.mp hL
    have hnop := hno p hp
    by_cases hLe : label p.1 ≤ rows[i].1
    · have hj' : label p.1 ≤ rows[j].1 := le_trans hLe hij
      simp [hLe, hj']
    · have hj' : ¬(label p.1 ≤ rows[j].1) := by
        intro hcon
        exact hnop ⟨not_le.mp hLe, hcon⟩
      simp [hLe, hj']
  rw [allocate_static_periodic _ _ _ hne]
  have hmaplen : ∀ (t : ℕ) (ht : t < rows.length),
      ((rows.map fun p =>
        (p.1, (lastLabelLE (periodLabels label rows) p.1).map
          (periodReturn (normalize_weights w) label rows))).getD t (0, none)) =
      (rows[t].1,
        (lastLabelLE (periodLabels label rows) rows[t].1).map
          (periodReturn (normalize_weights w) label rows)) := by
    intro t ht
    have htm : t < (rows.map fun p =>
        (p.1, (lastLabelLE (periodLabels label rows) p.1).map
          (periodReturn (normalize_weights w) label rows))).length := by
      simpa using ht
    rw [List.getD_eq_getElem _ _ htm, List.getElem_map]
  rw [hmaplen i hi, hmaplen j hj]
  dsimp only
  rw [hsel]

/-- Witness for C6 (amended) at a concrete two-day matrix whose single
period ends after both dates. -/
theorem C6_periodic_stepwise_witness :
    ((0:ℕ), ([1/10] : List ℚ)) = ([((0:ℕ), ([1/10] : List ℚ)), (1, [1/5])].get
      ⟨0, by norm_num⟩) ∧
    ((allocate_static [(0, [1/10]), (1, [1/5])] [1] (some fun _ => 5)).getD 0
        (0, none)).2 =
      ((allocate_static [(0, [1/10]), (1, [1/5])] [1] (some fun _ => 5)).getD 1
        (0, none)).2 := by
  constructor
  · rfl
  · exact C6_periodic_stepwise [(0, [1/10]), (1, [1/5])] [1] (fun _ => 5) 0 1
      (by norm_num) (by norm_num) (by norm_num)
      (by
        intro p hp
        intro hcon
        have h5 : (5 : ℕ) ≤ ([((0:ℕ), ([1/10]:List ℚ)), (1, [1/5])].get
            ⟨1, by norm_num⟩).1 := hcon.2
        norm_num at h5)

end RiskLab
